import Mathlib

/-!
# Verification of the edit/undo engine of a line-oriented text editor

This file is a shallow embedding, in Lean 4, of the edit/undo core of a
Rust terminal text editor:

* `src/core/edit_history.rs` — the `Edit` sum type, `Edit::apply`,
  `Edit::reverse`, and the `EditHistory` undo/redo stacks with their
  time-windowed merge (grouping) heuristic;
* `src/core/buffer.rs` — buffer construction;
* `src/core/selection.rs` — the anchor/cursor selection model;
* `src/tui/view/graphemes.rs` — grapheme-indexed string utilities;
* `src/tui/view/keyboard.rs` — the `backspace` mutation operation.

Modelling conventions:

* A Rust `String` is modelled by its list of `Char`s (`Str`), with
  `byteLen` giving the length of its UTF-8 encoding — the value of Rust's
  `String::len` / `str::len`.
* Operations that can panic in Rust (slice indexing `chars[..i]`,
  `Vec::insert` past the end, `String::split_off` at a non-boundary)
  return `Option`, with `none` marking the panic.
* `unicode_segmentation`'s grapheme clustering is external to the
  repository; a string together with its grapheme segmentation is
  modelled as `GStr := List Str`, a list of nonempty clusters whose
  concatenation (`gjoin`) is the character content.  Byte offsets of
  cluster boundaries are recovered by summing UTF-8 sizes, exactly as
  `grapheme_indices(true)` reports them.
* `std::time::Instant` is modelled as a millisecond count (`Nat`);
  `duration_since` on a monotone clock is truncated subtraction.
* Stacks (`Vec` with `push`/`pop` at the end) are modelled as lists with
  the top of the stack at the head; `Vec::remove(0)` is `List.dropLast`,
  `Vec::last()` is `List.head?`.
-/

/-- A Rust `String`/`str`, viewed as its sequence of `char`s. -/
abbrev Str := List Char

/-- The length of the UTF-8 encoding of a string: Rust `String::len`. -/
def byteLen (s : Str) : Nat := (s.map Char.utf8Size).sum

/-- A text buffer as `edit_history.rs` sees it: `Vec<String>`. -/
abbrev BufferL := List Str

/-- Rust slice `chars[..n]`; panics (`none`) when `n > chars.len()`. -/
def sliceTo (cs : Str) (n : Nat) : Option Str :=
  if n ≤ cs.length then some (cs.take n) else none

/-- Rust slice `chars[n..]`; panics (`none`) when `n > chars.len()`. -/
def sliceFrom (cs : Str) (n : Nat) : Option Str :=
  if n ≤ cs.length then some (cs.drop n) else none

/-- Rust `String::split_off(n)` at byte index `n` (also `str::split_at`):
panics (`none`) when `n` is not a character boundary or exceeds the byte
length; otherwise splits the character list at the boundary. -/
def byteSplit (s : Str) (n : Nat) : Option (Str × Str) :=
  if n = 0 then some ([], s)
  else
    match s with
    | [] => none
    | c :: cs =>
      if c.utf8Size ≤ n then
        (byteSplit cs (n - c.utf8Size)).map fun p => (c :: p.1, p.2)
      else none

/-- Rust `str::split('\n')`: the pieces between newline separators.
Always returns at least one (possibly empty) piece. -/
def splitNl : Str → List Str
  | [] => [[]]
  | c :: cs =>
    if c = '\n' then [] :: splitNl cs
    else
      match splitNl cs with
      | h :: t => (c :: h) :: t
      | [] => [[c]]

/-- `src/core/edit_history.rs`: the `Edit` sum type — one atomic,
invertible buffer mutation. -/
inductive Edit where
  | insertText (line column : Nat) (text : Str)
  | deleteText (line column : Nat) (text : Str)
  | insertLine (line : Nat) (remaining_text : Str)
  | deleteLine (line : Nat) (content : Str) (prev_line_end_len : Nat)
  | joinLines (line : Nat) (first_line_end : Nat)
  | replaceRange (start_line start_column end_line end_column : Nat)
      (old_text new_text : Str)
  deriving DecidableEq, Repr

/-- The `for _ in start_line..=end_line { if start_line < len { remove(start_line) } }`
loop of `ReplaceRange.apply` (multi-line branch), iterated `k` times. -/
def removeLoop (b : BufferL) (i : Nat) : Nat → BufferL
  | 0 => b
  | k + 1 => removeLoop (if i < b.length then b.eraseIdx i else b) i k

/-- The `for (i, line) in new_lines.iter().enumerate() { buffer.insert(start_line + i, line) }`
loop of `ReplaceRange.apply`; `Vec::insert` panics (`none`) past the end. -/
def insLoop (b : BufferL) (i : Nat) : List Str → Option BufferL
  | [] => some b
  | l :: ls => if i ≤ b.length then insLoop (b.insertIdx i l) (i + 1) ls else none

/-- `Edit::apply` (`edit_history.rs` lines 186–251): apply the edit to the
buffer, for redo.  `none` marks a Rust panic. -/
def Edit.apply (e : Edit) (buffer : BufferL) : Option BufferL :=
  match e with
  | .insertText line column text =>
    match buffer[line]? with
    | none => some buffer
    | some chars => do
      let pre ← sliceTo chars column
      let post ← sliceFrom chars column
      some (buffer.set line (pre ++ text ++ post))
  | .deleteText line column text =>
    match buffer[line]? with
    | none => some buffer
    | some chars => do
      let pre ← sliceTo chars column
      let post ← sliceFrom chars (column + byteLen text)
      some (buffer.set line (pre ++ post))
  | .insertLine line remaining_text =>
    if line < buffer.length then some (buffer.insertIdx (line + 1) remaining_text)
    else some (buffer ++ [remaining_text])
  | .deleteLine line _ _ =>
    if line < buffer.length then some (buffer.eraseIdx line) else some buffer
  | .joinLines line _ =>
    if h : line + 1 < buffer.length then
      let next := buffer.get ⟨line + 1, h⟩
      let b := buffer.eraseIdx (line + 1)
      match b[line]? with
      | some current => some (b.set line (current ++ next))
      | none => some b
    else some buffer
  | .replaceRange start_line start_column end_line end_column _ new_text =>
    if start_line = end_line then
      match buffer[start_line]? with
      | none => some buffer
      | some chars => do
        let pre ← sliceTo chars start_column
        let post ← sliceFrom chars end_column
        some (buffer.set start_line (pre ++ new_text ++ post))
    else
      let b := removeLoop buffer start_line (end_line + 1 - start_line)
      insLoop b start_line (splitNl new_text)

/-- `Edit::reverse` (`edit_history.rs` lines 254–314): reverse the edit,
for undo.  `none` marks a Rust panic.  Note the `ReplaceRange` arm only
handles `start_line == end_line`; the multi-line case is a no-op. -/
def Edit.reverse (e : Edit) (buffer : BufferL) : Option BufferL :=
  match e with
  | .insertText line column text =>
    match buffer[line]? with
    | none => some buffer
    | some chars => do
      let pre ← sliceTo chars column
      let post ← sliceFrom chars (column + byteLen text)
      some (buffer.set line (pre ++ post))
  | .deleteText line column text =>
    match buffer[line]? with
    | none => some buffer
    | some chars => do
      let pre ← sliceTo chars column
      let post ← sliceFrom chars column
      some (buffer.set line (pre ++ text ++ post))
  | .insertLine line remaining_text =>
    if line + 1 < buffer.length then
      let b := buffer.eraseIdx (line + 1)
      match b[line]? with
      | some current => some (b.set line (current ++ remaining_text))
      | none => some b
    else some buffer
  | .deleteLine line content prev_line_end_len =>
    if 0 < line ∧ line ≤ buffer.length then
      match buffer[line - 1]? with
      | none => some buffer
      | some prev => do
        let (keep, split_content) ← byteSplit prev prev_line_end_len
        some ((buffer.set (line - 1) keep).insertIdx line (content ++ split_content))
    else some buffer
  | .joinLines line first_line_end =>
    match buffer[line]? with
    | none => some buffer
    | some current => do
      let (keep, split_content) ← byteSplit current first_line_end
      some ((buffer.set line keep).insertIdx (line + 1) split_content)
  | .replaceRange start_line start_column end_line end_column old_text _ =>
    if start_line = end_line then
      match buffer[start_line]? with
      | none => some buffer
      | some chars => do
        let pre ← sliceTo chars start_column
        let post ← sliceFrom chars end_column
        some (buffer.set start_line (pre ++ old_text ++ post))
    else some buffer

/-- `src/tui/caret.rs`: screen `Position { x, y }` (modelled over `Nat`). -/
structure Position where
  x : Nat
  y : Nat
  deriving DecidableEq, Repr

/-- `src/core/edit_history.rs`: an `Edit` plus the cursor/scroll
snapshots taken before and after the mutation. -/
structure EditOperation where
  edit : Edit
  cursor_before : Position
  cursor_after : Position
  scroll_before : Nat
  scroll_after : Nat
  deriving DecidableEq, Repr

/-- `src/core/edit_history.rs`: the undo/redo engine.  Stack tops are at
the list heads (a `Vec`'s last element); `last_edit_time` is the
millisecond timestamp of the last push. -/
structure EditHistory where
  undo_stack : List EditOperation
  redo_stack : List EditOperation
  max_history : Nat
  last_edit_time : Nat
  grouping_threshold_ms : Nat
  deriving DecidableEq, Repr

/-- `EditHistory::new(max_history)`, with the creation instant passed
explicitly. -/
def EditHistory.new (max_history now : Nat) : EditHistory :=
  { undo_stack := [], redo_stack := [], max_history := max_history
    last_edit_time := now, grouping_threshold_ms := 500 }

/-- `EditHistory::can_group_with_last` (lines 112–132): stack nonempty,
elapsed time within the threshold, and both edits `InsertText` on the
same line or both `DeleteText` on the same line. -/
def EditHistory.can_group_with_last (h : EditHistory) (operation : EditOperation)
    (now : Nat) : Bool :=
  if h.undo_stack.isEmpty then false
  else
    let elapsed := now - h.last_edit_time
    if elapsed > h.grouping_threshold_ms then false
    else
      match h.undo_stack.head? with
      | some last_op =>
        match last_op.edit, operation.edit with
        | .insertText l1 _ _, .insertText l2 _ _ => l1 == l2
        | .deleteText l1 _ _, .deleteText l2 _ _ => l1 == l2
        | _, _ => false
      | none => false

/-- `EditHistory::try_merge_operations` (lines 135–161), returning the
merged operation on success (`true` in the source) and `none` on failure.
`InsertText` merges require `c1 + t1.len() == c2` (byte length);
`DeleteText` merges require `c2 == c1.saturating_sub(t2.len())`, which is
truncated subtraction on `Nat`. -/
def EditHistory.try_merge_operations (last new : EditOperation) : Option EditOperation :=
  match last.edit, new.edit with
  | .insertText l1 c1 t1, .insertText l2 c2 t2 =>
    if l1 = l2 ∧ c1 + byteLen t1 = c2 then
      some { last with
        edit := .insertText l1 c1 (t1 ++ t2)
        cursor_after := new.cursor_after
        scroll_after := new.scroll_after }
    else none
  | .deleteText l1 c1 t1, .deleteText l2 c2 t2 =>
    if l1 = l2 ∧ c2 = c1 - byteLen t2 then
      some { last with
        edit := .deleteText l1 c2 (t2 ++ t1)
        cursor_after := new.cursor_after
        scroll_after := new.scroll_after }
    else none
  | _, _ => none

/-- `EditHistory::push` (lines 78–109): clear redo, attempt a grouped
merge with the top of the undo stack, otherwise push as a new entry and
evict the oldest entry (`Vec` index 0 = list last) past `max_history`.
The merge-success path returns early, before the capacity check. -/
def EditHistory.push (h : EditHistory) (operation : EditOperation) (now : Nat) :
    EditHistory :=
  let h := { h with redo_stack := [] }
  let merged : Option EditHistory :=
    if h.can_group_with_last operation now then
      match h.undo_stack with
      | last_op :: rest =>
        match EditHistory.try_merge_operations last_op operation with
        | some m => some { h with undo_stack := m :: rest, last_edit_time := now }
        | none => none
      | [] => none
    else none
  match merged with
  | some h => h
  | none =>
    let h := { h with undo_stack := operation :: h.undo_stack, last_edit_time := now }
    if h.undo_stack.length > h.max_history then
      { h with undo_stack := h.undo_stack.dropLast }
    else h

/-- `EditHistory::undo` (lines 164–171): pop the undo stack, pushing a
clone of the popped operation onto the redo stack. -/
def EditHistory.undo (h : EditHistory) : Option EditOperation × EditHistory :=
  match h.undo_stack with
  | operation :: rest =>
    (some operation, { h with undo_stack := rest, redo_stack := operation :: h.redo_stack })
  | [] => (none, h)

/-- `EditHistory::redo` (lines 174–181): pop the redo stack, pushing a
clone of the popped operation onto the undo stack. -/
def EditHistory.redo (h : EditHistory) : Option EditOperation × EditHistory :=
  match h.redo_stack with
  | operation :: rest =>
    (some operation, { h with redo_stack := rest, undo_stack := operation :: h.undo_stack })
  | [] => (none, h)

/-- A string together with its grapheme segmentation, as produced by
`unicode_segmentation::graphemes(true)`: the list of grapheme clusters
(each a nonempty run of characters).  The character content of the
string is `gjoin`. -/
abbrev GStr := List Str

/-- The character content of a segmented string. -/
def gjoin (s : GStr) : Str := s.flatten

/-- The byte length of a segmented string (`str::len`). -/
def gByteLen (s : GStr) : Nat := byteLen (gjoin s)

/-- `graphemes.rs::grapheme_len`: `s.graphemes(true).count()`. -/
def grapheme_len (s : GStr) : Nat := s.length

/-- `graphemes.rs::grapheme_to_byte_idx`:
`s.grapheme_indices(true).nth(i).map(|(idx, _)| idx).unwrap_or(s.len())` —
the byte offset of the `i`-th cluster, or the total byte length when
there are fewer than `i + 1` clusters. -/
def grapheme_to_byte_idx (s : GStr) (grapheme_idx : Nat) : Nat :=
  if grapheme_idx < s.length then byteLen (gjoin (s.take grapheme_idx))
  else gByteLen s

/-- `graphemes.rs::grapheme_at`: `s.graphemes(true).nth(i)`. -/
def grapheme_at (s : GStr) (grapheme_idx : Nat) : Option Str :=
  s[grapheme_idx]?

/-- `graphemes.rs::grapheme_slice`:
`s.graphemes(true).skip(start).take(end.saturating_sub(start)).collect()`. -/
def grapheme_slice (s : GStr) (start stop : Nat) : Str :=
  gjoin ((s.drop start).take (stop - start))

/-- `graphemes.rs::insert_at_grapheme`: `s.insert_str(byte_idx, text)` at
`byte_idx = grapheme_to_byte_idx(s, i)`; `insert_str` panics (`none`) off
a character boundary. -/
def insert_at_grapheme (s : GStr) (grapheme_idx : Nat) (text : Str) : Option Str :=
  (byteSplit (gjoin s) (grapheme_to_byte_idx s grapheme_idx)).map fun p =>
    p.1 ++ text ++ p.2

/-- Rust `String::drain(a..b)`, collected: panics (`none`) when `a > b`,
when `b` exceeds the byte length, or off a character boundary; otherwise
returns (removed, remaining). -/
def drainRange (cs : Str) (a b : Nat) : Option (Str × Str) :=
  if a ≤ b then do
    let (pre, rest) ← byteSplit cs a
    let (mid, post) ← byteSplit rest (b - a)
    some (mid, pre ++ post)
  else none

/-- `graphemes.rs::remove_grapheme_at`: drain the bytes of the `i`-th
cluster when `byte_start < s.len()`, else `None`.  The outer `Option` is
the panic monad; the inner pair is (removed cluster, remaining string). -/
def remove_grapheme_at (s : GStr) (grapheme_idx : Nat) : Option (Option Str × Str) :=
  let byte_start := grapheme_to_byte_idx s grapheme_idx
  let byte_stop := grapheme_to_byte_idx s (grapheme_idx + 1)
  if byte_start < gByteLen s then
    (drainRange (gjoin s) byte_start byte_stop).map fun p => (some p.1, p.2)
  else some (none, gjoin s)

/-- `graphemes.rs::split_at_grapheme`:
`s.split_at(grapheme_to_byte_idx(s, i))`; `split_at` panics (`none`) off
a character boundary. -/
def split_at_grapheme (s : GStr) (grapheme_idx : Nat) : Option (Str × Str) :=
  byteSplit (gjoin s) (grapheme_to_byte_idx s grapheme_idx)

/-- `src/tui/view/keyboard.rs::backspace` (lines 186–259), restricted to
its buffer effect and emitted `Edit` (no active selection; caret motion,
scrolling and rendering are terminal I/O and are omitted — they do not
touch the buffer).  Buffer lines are kept in segmented form; per
`remove_grapheme_at_spec` below, removing a cluster at the string level
is erasing it from the cluster list.  `buffer_line_idx` and `char_pos`
are the line/column the function derives from the caret.  The
`lines[buffer_line_idx - 1]` / `lines[buffer_line_idx]` indexing in the
line-merge branch panics (`none`) out of bounds. -/
def backspace (lines : List GStr) (buffer_line_idx char_pos : Nat) :
    Option (List GStr × Option Edit) :=
  if char_pos > 0 then
    match lines[buffer_line_idx]? with
    | some line_content =>
      let grapheme_count := grapheme_len line_content
      if char_pos ≤ grapheme_count then
        let deleted := Option.getD line_content[char_pos - 1]? []
        some (lines.set buffer_line_idx (line_content.eraseIdx (char_pos - 1)),
          some (.deleteText buffer_line_idx (char_pos - 1) deleted))
      else some (lines, none)
    | none => some (lines, none)
  else if buffer_line_idx > 0 then
    match lines[buffer_line_idx - 1]?, lines[buffer_line_idx]? with
    | some prev, some current =>
      let prev_line_len := grapheme_len prev
      let merged := lines.set (buffer_line_idx - 1) (prev ++ current)
      some (merged.eraseIdx buffer_line_idx,
        some (.deleteLine buffer_line_idx (gjoin current) prev_line_len))
    | _, _ => none
  else some (lines, none)

/-- `src/core/selection.rs::TextPosition`. -/
structure TextPosition where
  line : Nat
  column : Nat
  deriving DecidableEq, Repr

/-- `src/core/selection.rs::Selection`: anchor (where selecting started)
and cursor (current position). -/
structure Selection where
  anchor : TextPosition
  cursor : TextPosition
  deriving DecidableEq, Repr

/-- `Selection::is_active`: anchor and cursor differ. -/
def Selection.is_active (s : Selection) : Bool := s.anchor ≠ s.cursor

/-- `Selection::get_range` (lines 27–34): the (start, stop) pair ordered
by line then column. -/
def Selection.get_range (s : Selection) : TextPosition × TextPosition :=
  if s.anchor.line < s.cursor.line
      ∨ (s.anchor.line = s.cursor.line ∧ s.anchor.column < s.cursor.column) then
    (s.anchor, s.cursor)
  else
    (s.cursor, s.anchor)

/-- Rust `str::lines()`: split on `'\n'`, dropping one trailing `'\r'`
from each piece, and dropping the final piece when it is empty (no line
after a trailing newline, and no line at all in an empty string). -/
def rustLines (s : Str) : List Str :=
  let parts := (splitNl s).map fun l => if l.getLast? = some '\r' then l.dropLast else l
  match parts.getLast? with
  | some [] => parts.dropLast
  | _ => parts

/-- `src/core/buffer.rs::Buffer::from_string` (lines 9–23): the file's
lines, at least one line if empty, plus 500 empty padding lines. -/
def Buffer.from_string (content : Str) : BufferL :=
  let lines := rustLines content
  let lines := if lines.isEmpty then lines ++ [[]] else lines
  lines ++ List.replicate 500 []

/-- `src/core/buffer.rs::Buffer::default` (lines 26–35): 500 empty lines. -/
def Buffer.default : BufferL := List.replicate 500 []

/-- Push a whole list of operations, all carrying the same timestamp. -/
def pushAll (h : EditHistory) (ops : List EditOperation) (now : Nat) : EditHistory :=
  ops.foldl (fun h op => h.push op now) h

/-- Adjacent operations in the list are pairwise non-mergeable:
`try_merge_operations` fails on every consecutive pair. -/
def noMergeAdj : List EditOperation → Bool
  | a :: b :: rest =>
    (EditHistory.try_merge_operations a b).isNone && noMergeAdj (b :: rest)
  | _ => true

/-- Typing `'a'` at line 0, column 0 (the recorded operation). -/
def typeOpA : EditOperation :=
  { edit := .insertText 0 0 ['a'], cursor_before := ⟨4, 1⟩, cursor_after := ⟨5, 1⟩
    scroll_before := 0, scroll_after := 0 }

/-- Typing `'b'` at line 0, column 1. -/
def typeOpB : EditOperation :=
  { edit := .insertText 0 1 ['b'], cursor_before := ⟨5, 1⟩, cursor_after := ⟨6, 1⟩
    scroll_before := 0, scroll_after := 0 }

/-- Typing `'c'` at line 0, column 2. -/
def typeOpC : EditOperation :=
  { edit := .insertText 0 2 ['c'], cursor_before := ⟨6, 1⟩, cursor_after := ⟨7, 1⟩
    scroll_before := 0, scroll_after := 0 }

/-- Backspacing `'c'` from the end of `"abc"` (column 3 → 2). -/
def bkspOpC : EditOperation :=
  { edit := .deleteText 0 2 ['c'], cursor_before := ⟨7, 1⟩, cursor_after := ⟨6, 1⟩
    scroll_before := 0, scroll_after := 0 }

/-- Backspacing `'b'` (column 2 → 1). -/
def bkspOpB : EditOperation :=
  { edit := .deleteText 0 1 ['b'], cursor_before := ⟨6, 1⟩, cursor_after := ⟨5, 1⟩
    scroll_before := 0, scroll_after := 0 }

/-- Backspacing `'a'` (column 1 → 0). -/
def bkspOpA : EditOperation :=
  { edit := .deleteText 0 0 ['a'], cursor_before := ⟨5, 1⟩, cursor_after := ⟨4, 1⟩
    scroll_before := 0, scroll_after := 0 }

/-- A newline operation (never mergeable), used for capacity tests. -/
def c5op1 : EditOperation :=
  { edit := .insertLine 0 [], cursor_before := ⟨4, 1⟩, cursor_after := ⟨4, 2⟩
    scroll_before := 0, scroll_after := 0 }

/-- A second non-mergeable operation for capacity tests. -/
def c5op2 : EditOperation :=
  { edit := .insertLine 1 ['q'], cursor_before := ⟨5, 2⟩, cursor_after := ⟨4, 3⟩
    scroll_before := 0, scroll_after := 0 }

/-! ## Theorems -/

/-- **C1.** The spec claims that for every `Edit` variant `e` and every
buffer `b` in which `e` is valid (the exact state `e` was generated
from), `reverse(apply(b, e)) == b` byte-for-byte, line count included.
The code violates this: pressing Enter inside the line `"ax"` (grapheme
column 1) generates `InsertLine{line: 0, remaining_text: "x"}` from the
buffer `["ax"]`, yet applying and then reversing that edit against
`["ax"]` yields `["axx"]` — `Edit::apply` for `InsertLine` inserts the
new line without truncating line `line`, while `Edit::reverse` removes
the inserted line and appends `remaining_text` to line `line` again. -/
theorem c1_insertLine_apply_reverse_not_inverse :
    ((Edit.insertLine 0 ['x']).apply [['a', 'x']]).bind
        (Edit.insertLine 0 ['x']).reverse
      = some [['a', 'x', 'x']]
      ∧ [['a', 'x', 'x']] ≠ [['a', 'x']] := by
  exact ⟨rfl, by decide⟩

/-- **C2.** The spec claims undo × N then redo × N restores the buffer,
every intermediate state matching the forward-history snapshot.  The
code violates this for a single backspace line-merge: on the buffer
`["a", "b"]` with the cursor at line 1, column 0, `backspace` merges the
lines into `["ab"]` and records `DeleteLine{line: 1, content: "b",
prev_line_end_len: 1}`; `undo()` returns that operation, but applying
its `Edit::reverse` to `["ab"]` yields `["a", "bb"]` (the deleted
content is both prefixed and left in the split tail) instead of the
forward snapshot `["a", "b"]`; `redo()` then returns it again, and its
`Edit::apply` yields `["a"]` (the merge is not re-performed, the line is
only removed) instead of the post-mutation state `["ab"]`. -/
theorem c2_undo_redo_identity_fails :
    backspace [[['a']], [['b']]] 1 0
        = some ([[['a'], ['b']]], some (.deleteLine 1 ['b'] 1))
      ∧ (((EditHistory.new 100 0).push
            { edit := .deleteLine 1 ['b'] 1
              cursor_before := ⟨4, 2⟩, cursor_after := ⟨5, 1⟩
              scroll_before := 0, scroll_after := 0 } 0).undo.1).map
            EditOperation.edit = some (.deleteLine 1 ['b'] 1)
      ∧ (Edit.deleteLine 1 ['b'] 1).reverse [['a', 'b']]
          = some [['a'], ['b', 'b']]
      ∧ [['a'], ['b', 'b']] ≠ [['a'], ['b']]
      ∧ (Edit.deleteLine 1 ['b'] 1).apply [['a'], ['b', 'b']] = some [['a']]
      ∧ [['a']] ≠ [['a', 'b']] := by
  refine ⟨rfl, rfl, rfl, by decide, rfl, by decide⟩

/-- **C6.** The spec claims `Edit::apply`/`Edit::reverse` never panic:
line indices out of bounds no-op, and all column arithmetic is total.
The code no-ops on out-of-bounds *line* indices but panics on
out-of-bounds *columns*: `InsertText{line: 0, column: 5, text: "x"}`
applied to `["ab"]` evaluates `chars[..5]` on a 2-character line — a
slice-index panic (`none` in this model) — while the same edit with
`line: 7` is a silent no-op. -/
theorem c6_apply_panics_on_column_out_of_bounds :
    (Edit.insertText 0 5 ['x']).apply [['a', 'b']] = none
      ∧ (Edit.insertText 7 0 ['x']).apply [['a', 'b']] = some [['a', 'b']] := by
  exact ⟨rfl, rfl⟩

/-- **C7 counterexample.** The claim says *every* `Edit` applied against
a non-empty buffer leaves it non-empty.  `DeleteLine{line: 0}` applied
to the one-line buffer `["x"]` produces the empty line sequence. -/
theorem c7_deleteLine_can_empty_buffer :
    (Edit.deleteLine 0 [] 0).apply [['x']] = some [] ∧ ([['x']] : BufferL) ≠ [] := by
  exact ⟨rfl, by decide⟩

/-- **C4 counterexample.** The claim says two `DeleteText` on the same
line merge **iff** the new deletion's column equals the old column minus
`len(new.text)`.  The source compares against
`old.column.saturating_sub(new.text.len())`: with the top entry
`DeleteText{line: 0, column: 1, text: "a"}` and a new
`DeleteText{line: 0, column: 0, text: "xy"}` pushed within the grouping
window, `1 - 2` saturates to `0` and the push *merges* (one stack entry
`DeleteText{column: 0, text: "xya"}`), although no column satisfies
`column + len("xy") = 1` exactly. -/
theorem c4_merge_saturating_sub_counterexample :
    (EditHistory.push
        { undo_stack := [{ edit := .deleteText 0 1 ['a']
                           cursor_before := ⟨5, 1⟩, cursor_after := ⟨6, 1⟩
                           scroll_before := 0, scroll_after := 0 }]
          redo_stack := [], max_history := 100
          last_edit_time := 0, grouping_threshold_ms := 500 }
        { edit := .deleteText 0 0 ['x', 'y']
          cursor_before := ⟨6, 1⟩, cursor_after := ⟨4, 1⟩
          scroll_before := 0, scroll_after := 1 } 0).undo_stack
      = [{ edit := .deleteText 0 0 ['x', 'y', 'a']
           cursor_before := ⟨5, 1⟩, cursor_after := ⟨4, 1⟩
           scroll_before := 0, scroll_after := 1 }]
      ∧ ∀ c : Nat, c + byteLen ['x', 'y'] = 1 → False := by
  constructor
  · decide
  · intro c hc
    rw [show byteLen ['x', 'y'] = 2 from rfl] at hc
    omega

/-- **C10.** `Selection::get_range` returns the `(min, max)` of anchor
and cursor ordered by line then column, independently of which endpoint
is the anchor: swapping anchor and cursor yields the same pair, the
first component is lexicographically ≤ the second, the pair is always
the two endpoints, and in particular
`Selection{anchor: (2,5), cursor: (1,0)}.get_range() = ((1,0), (2,5))`. -/
theorem c10_get_range_order_independent :
    (∀ a c : TextPosition,
        Selection.get_range ⟨a, c⟩ = Selection.get_range ⟨c, a⟩)
      ∧ (∀ s : Selection,
          ((s.get_range.1.line < s.get_range.2.line
              ∨ (s.get_range.1.line = s.get_range.2.line
                  ∧ s.get_range.1.column ≤ s.get_range.2.column))
            ∧ (s.get_range = (s.anchor, s.cursor)
                ∨ s.get_range = (s.cursor, s.anchor))))
      ∧ Selection.get_range ⟨⟨2, 5⟩, ⟨1, 0⟩⟩ = (⟨1, 0⟩, ⟨2, 5⟩) := by
  refine ⟨?_, ?_, by decide⟩
  · intro a c
    simp only [Selection.get_range]
    rcases Nat.lt_trichotomy a.line c.line with hl | hl | hl
    · rw [if_pos (Or.inl hl), if_neg]
      omega
    · rcases Nat.lt_trichotomy a.column c.column with hc | hc | hc
      · rw [if_pos (Or.inr ⟨hl, hc⟩), if_neg]
        omega
      · rw [if_neg (by omega), if_neg (by omega)]
        have : a = c := by
          cases a; cases c
          simp_all
        rw [this]
      · rw [if_neg (by omega), if_pos (Or.inr ⟨hl.symm, hc⟩)]
    · rw [if_neg (by omega), if_pos (Or.inl hl)]
  · intro s
    simp only [Selection.get_range]
    constructor
    · split
      · dsimp only
        omega
      · dsimp only
        omega
    · split
      · exact Or.inl rfl
      · exact Or.inr rfl

/-- **C3.** When `push` receives an `InsertText` while the undo stack's
top is an `InsertText` on the same line and at most 500 ms have elapsed
since the last push, the two merge **iff** the new column equals the old
column plus `old.text.len()` (the byte length, as in the source): on
merge the texts concatenate and the merged entry takes the new
operation's `cursor_after`/`scroll_after`; otherwise the new operation
is pushed as its own entry.  Hence typing `'a'`, `'b'`, `'c'`
contiguously at line 0 column 0 within the window (pushes at 0 ms,
100 ms, 200 ms) yields exactly one undo entry with text `"abc"`, while a
gap of more than 500 ms before `'c'` (push at 700 ms) yields two entries
(`"ab"`, then `"c"`). -/
theorem c3_insertText_grouping :
    (∀ (h : EditHistory) (rest : List EditOperation)
        (lastOp newOp : EditOperation) (l c1 c2 : Nat) (t1 t2 : Str) (now : Nat),
      h.undo_stack = lastOp :: rest →
      lastOp.edit = .insertText l c1 t1 →
      newOp.edit = .insertText l c2 t2 →
      now - h.last_edit_time ≤ h.grouping_threshold_ms →
      h.undo_stack.length < h.max_history →
      (h.push newOp now).undo_stack =
        if c2 = c1 + byteLen t1 then
          { lastOp with
              edit := .insertText l c1 (t1 ++ t2)
              cursor_after := newOp.cursor_after
              scroll_after := newOp.scroll_after } :: rest
        else newOp :: lastOp :: rest)
    ∧ ((((EditHistory.new 100 0).push typeOpA 0).push typeOpB 100).push
          typeOpC 200).undo_stack
        = [{ edit := .insertText 0 0 ['a', 'b', 'c']
             cursor_before := ⟨4, 1⟩, cursor_after := ⟨7, 1⟩
             scroll_before := 0, scroll_after := 0 }]
    ∧ ((((EditHistory.new 100 0).push typeOpA 0).push typeOpB 100).push
          typeOpC 700).undo_stack
        = [typeOpC,
           { edit := .insertText 0 0 ['a', 'b']
             cursor_before := ⟨4, 1⟩, cursor_after := ⟨6, 1⟩
             scroll_before := 0, scroll_after := 0 }] := by
  refine ⟨?_, by decide, by decide⟩
  intro h rest lastOp newOp l c1 c2 t1 t2 now hstack hlast hnew htime hcap
  obtain ⟨us, rs, mh, lt, gt⟩ := h
  simp only at hstack htime hcap
  subst hstack
  have hgroup : EditHistory.can_group_with_last
      { undo_stack := lastOp :: rest, redo_stack := [], max_history := mh,
        last_edit_time := lt, grouping_threshold_ms := gt } newOp now = true := by
    simp [EditHistory.can_group_with_last, hlast, hnew, Nat.not_lt.mpr htime]
  by_cases hc : c2 = c1 + byteLen t1
  · simp [EditHistory.push, hgroup, EditHistory.try_merge_operations, hlast, hnew, hc]
  · rw [if_neg hc]
    simp only [EditHistory.push, hgroup, EditHistory.try_merge_operations, hlast, hnew]
    simp only [List.length_cons] at hcap
    simp [Ne.symm hc, if_neg (by omega : ¬ mh < rest.length + 1 + 1)]

/-- **C3 witness**: a concrete contiguous merge — top entry
`InsertText{line: 3, column: 2, text: "ab"}`, new operation
`InsertText{line: 3, column: 4, text: "z"}` pushed 400 ms later. -/
theorem c3_insertText_grouping_witness :
    (EditHistory.push
        { undo_stack := [{ edit := .insertText 3 2 ['a', 'b']
                           cursor_before := ⟨6, 1⟩, cursor_after := ⟨8, 1⟩
                           scroll_before := 0, scroll_after := 0 }]
          redo_stack := [], max_history := 10
          last_edit_time := 0, grouping_threshold_ms := 500 }
        { edit := .insertText 3 4 ['z']
          cursor_before := ⟨8, 1⟩, cursor_after := ⟨9, 1⟩
          scroll_before := 0, scroll_after := 2 } 400).undo_stack
      = [{ edit := .insertText 3 2 ['a', 'b', 'z']
           cursor_before := ⟨6, 1⟩, cursor_after := ⟨9, 1⟩
           scroll_before := 0, scroll_after := 2 }] := by
  have := c3_insertText_grouping.1
    { undo_stack := [{ edit := .insertText 3 2 ['a', 'b']
                       cursor_before := ⟨6, 1⟩, cursor_after := ⟨8, 1⟩
                       scroll_before := 0, scroll_after := 0 }]
      redo_stack := [], max_history := 10
      last_edit_time := 0, grouping_threshold_ms := 500 }
    []
    { edit := .insertText 3 2 ['a', 'b']
      cursor_before := ⟨6, 1⟩, cursor_after := ⟨8, 1⟩
      scroll_before := 0, scroll_after := 0 }
    { edit := .insertText 3 4 ['z']
      cursor_before := ⟨8, 1⟩, cursor_after := ⟨9, 1⟩
      scroll_before := 0, scroll_after := 2 }
    3 2 4 ['a', 'b'] ['z'] 400 rfl rfl rfl (by decide) (by decide)
  rw [this, if_pos (by decide)]
  rfl

/-- **C4 (amended).** Two `DeleteText` on the same line within the
grouping window merge **iff** the new column equals
`old.column.saturating_sub(new.text.len())` (truncated subtraction on
byte length, as in the source — not exact subtraction as the claim
states): on merge the new text is prepended (`new.text + old.text`), the
column becomes the new deletion's column, and
`cursor_after`/`scroll_after` become the new operation's.  Backspacing
three times from the end of `"abc"` (pushes at 0 ms, 100 ms, 200 ms)
yields one undo entry `DeleteText{text: "abc", column: 0}`. -/
theorem c4_deleteText_grouping :
    (∀ (h : EditHistory) (rest : List EditOperation)
        (lastOp newOp : EditOperation) (l c1 c2 : Nat) (t1 t2 : Str) (now : Nat),
      h.undo_stack = lastOp :: rest →
      lastOp.edit = .deleteText l c1 t1 →
      newOp.edit = .deleteText l c2 t2 →
      now - h.last_edit_time ≤ h.grouping_threshold_ms →
      h.undo_stack.length < h.max_history →
      (h.push newOp now).undo_stack =
        if c2 = c1 - byteLen t2 then
          { lastOp with
              edit := .deleteText l c2 (t2 ++ t1)
              cursor_after := newOp.cursor_after
              scroll_after := newOp.scroll_after } :: rest
        else newOp :: lastOp :: rest)
    ∧ ((((EditHistory.new 100 0).push bkspOpC 0).push bkspOpB 100).push
          bkspOpA 200).undo_stack
        = [{ edit := .deleteText 0 0 ['a', 'b', 'c']
             cursor_before := ⟨7, 1⟩, cursor_after := ⟨4, 1⟩
             scroll_before := 0, scroll_after := 0 }] := by
  refine ⟨?_, by decide⟩
  intro h rest lastOp newOp l c1 c2 t1 t2 now hstack hlast hnew htime hcap
  obtain ⟨us, rs, mh, lt, gt⟩ := h
  simp only at hstack htime hcap
  subst hstack
  have hgroup : EditHistory.can_group_with_last
      { undo_stack := lastOp :: rest, redo_stack := [], max_history := mh,
        last_edit_time := lt, grouping_threshold_ms := gt } newOp now = true := by
    simp [EditHistory.can_group_with_last, hlast, hnew, Nat.not_lt.mpr htime]
  by_cases hc : c2 = c1 - byteLen t2
  · simp [EditHistory.push, hgroup, EditHistory.try_merge_operations, hlast, hnew, hc]
  · rw [if_neg hc]
    simp only [EditHistory.push, hgroup, EditHistory.try_merge_operations, hlast, hnew]
    simp only [List.length_cons] at hcap
    simp [hc, if_neg (by omega : ¬ mh < rest.length + 1 + 1)]

/-- **C4 witness**: a concrete contiguous backspace merge — top entry
`DeleteText{line: 2, column: 6, text: "cd"}`, new operation
`DeleteText{line: 2, column: 4, text: "ab"}` pushed 300 ms later. -/
theorem c4_deleteText_grouping_witness :
    (EditHistory.push
        { undo_stack := [{ edit := .deleteText 2 6 ['c', 'd']
                           cursor_before := ⟨12, 3⟩, cursor_after := ⟨10, 3⟩
                           scroll_before := 0, scroll_after := 0 }]
          redo_stack := [], max_history := 10
          last_edit_time := 0, grouping_threshold_ms := 500 }
        { edit := .deleteText 2 4 ['a', 'b']
          cursor_before := ⟨10, 3⟩, cursor_after := ⟨8, 3⟩
          scroll_before := 0, scroll_after := 0 } 300).undo_stack
      = [{ edit := .deleteText 2 4 ['a', 'b', 'c', 'd']
           cursor_before := ⟨12, 3⟩, cursor_after := ⟨8, 3⟩
           scroll_before := 0, scroll_after := 0 }] := by
  have := c4_deleteText_grouping.1
    { undo_stack := [{ edit := .deleteText 2 6 ['c', 'd']
                       cursor_before := ⟨12, 3⟩, cursor_after := ⟨10, 3⟩
                       scroll_before := 0, scroll_after := 0 }]
      redo_stack := [], max_history := 10
      last_edit_time := 0, grouping_threshold_ms := 500 }
    []
    { edit := .deleteText 2 6 ['c', 'd']
      cursor_before := ⟨12, 3⟩, cursor_after := ⟨10, 3⟩
      scroll_before := 0, scroll_after := 0 }
    { edit := .deleteText 2 4 ['a', 'b']
      cursor_before := ⟨10, 3⟩, cursor_after := ⟨8, 3⟩
      scroll_before := 0, scroll_after := 0 }
    2 6 4 ['c', 'd'] ['a', 'b'] 300 rfl rfl rfl (by decide) (by decide)
  rw [this, if_pos (by decide)]
  rfl

/-- A push whose merge attempt fails (or is ineligible) conses the
operation and keeps at most `max_history` entries. -/
theorem push_no_merge_eq (us rs : List EditOperation) (mh lt gt : Nat)
    (op : EditOperation) (now : Nat)
    (hlen : us.length ≤ mh)
    (hmerge : ∀ top, us.head? = some top →
      EditHistory.try_merge_operations top op = none) :
    EditHistory.push ⟨us, rs, mh, lt, gt⟩ op now
      = ⟨List.take mh (op :: us), [], mh, now, gt⟩ := by
  cases us with
  | nil =>
    have hg : EditHistory.can_group_with_last
        { undo_stack := [], redo_stack := [], max_history := mh,
          last_edit_time := lt, grouping_threshold_ms := gt } op now = false := by
      simp [EditHistory.can_group_with_last]
    simp only [EditHistory.push, hg]
    simp only [Bool.false_eq_true, if_false]
    split
    · next hcase =>
      simp only [List.length_cons, List.length_nil] at hcase
      have : mh = 0 := by omega
      simp [this]
    · next hcase =>
      simp only [List.length_cons, List.length_nil] at hcase
      congr 1
      rw [List.take_of_length_le (by simp; omega)]
  | cons a rest =>
    have hm := hmerge a rfl
    simp only [EditHistory.push, hm]
    have hnone : ∀ c : Prop, [inst : Decidable c] →
        (if c then (none : Option EditHistory) else none) = none := by
      intro c inst
      split <;> rfl
    rw [hnone]
    simp only
    split
    · next hcase =>
      simp only [List.length_cons] at hcase hlen
      congr 1
      rw [List.dropLast_eq_take]
      simp only [List.length_cons]
      congr 1
      omega
    · next hcase =>
      simp only [List.length_cons] at hcase
      congr 1
      rw [List.take_of_length_le (by simp; omega)]

/-- The tail of a pairwise non-mergeable list is pairwise non-mergeable. -/
theorem noMergeAdj_tail (a : EditOperation) (l : List EditOperation)
    (h : noMergeAdj (a :: l) = true) : noMergeAdj l = true := by
  cases l with
  | nil => rfl
  | cons b r =>
    simp only [noMergeAdj, Bool.and_eq_true] at h
    exact h.2

/-- Truncating an already-truncated suffix is truncating once. -/
theorem take_append_take (n : Nat) (a b : List EditOperation) :
    List.take n (a ++ List.take n b) = List.take n (a ++ b) := by
  rw [List.take_append_eq_append_take, List.take_append_eq_append_take,
    List.take_take]
  congr 1
  rw [Nat.min_eq_left (Nat.sub_le n a.length)]

/-- Pushing a pairwise non-mergeable batch: the undo stack is the last
`max_history` of the pushed operations (newest first) on top of what
fits of the old stack. -/
theorem pushAll_stack (mh : Nat) (ops : List EditOperation) :
    ∀ (us rs : List EditOperation) (lt gt now : Nat),
    us.length ≤ mh →
    noMergeAdj (us.head?.toList ++ ops) = true →
    (pushAll ⟨us, rs, mh, lt, gt⟩ ops now).undo_stack
      = List.take mh (ops.reverse ++ us) := by
  induction ops with
  | nil =>
    intro us rs lt gt now hlen _
    simp only [pushAll, List.foldl_nil, List.nil_append]
    exact (List.take_of_length_le hlen).symm
  | cons op ops ih =>
    intro us rs lt gt now hlen hadj
    have hmerge : ∀ top, us.head? = some top →
        EditHistory.try_merge_operations top op = none := by
      intro top htop
      cases us with
      | nil => simp at htop
      | cons a rest =>
        simp only [List.head?, Option.some.injEq] at htop
        subst htop
        simp only [List.head?, Option.toList, List.cons_append, List.nil_append,
          noMergeAdj, Bool.and_eq_true] at hadj
        exact Option.isNone_iff_eq_none.mp hadj.1
    have hstep := push_no_merge_eq us rs mh lt gt op now hlen hmerge
    have hops : noMergeAdj (op :: ops) = true := by
      cases us with
      | nil => simpa using hadj
      | cons a rest =>
        simp only [List.head?, Option.toList, List.cons_append, List.nil_append] at hadj
        exact noMergeAdj_tail a (op :: ops) hadj
    have hadj' : noMergeAdj ((List.take mh (op :: us)).head?.toList ++ ops) = true := by
      cases mh with
      | zero => exact noMergeAdj_tail op ops hops
      | succ m =>
        rw [List.take_cons (Nat.succ_pos m)]
        simpa using hops
    simp only [pushAll, List.foldl_cons] at *
    rw [show (fun h op => EditHistory.push h op now) = fun h op => h.push op now from rfl] at *
    rw [hstep]
    have := ih (List.take mh (op :: us)) [] now gt now
      (by simp only [List.length_take]; exact Nat.min_le_left _ _) hadj'
    simp only [pushAll] at this
    rw [this, take_append_take, List.reverse_cons, List.append_assoc]
    simp

/-- **C5.** Pushing `max_history + 1` pairwise non-mergeable operations
into a fresh history leaves exactly `max_history` entries: the oldest
(the first pushed) is evicted and the remaining stack is the last
`max_history` operations, newest on top; moreover no push ever leaves
more than `max_history` entries on the undo stack. -/
theorem c5_capacity_eviction :
    (∀ (mh : Nat) (ops : List EditOperation) (t0 now : Nat),
      ops.length = mh + 1 →
      noMergeAdj ops = true →
      (pushAll (EditHistory.new mh t0) ops now).undo_stack = (ops.drop 1).reverse)
    ∧ (∀ (h : EditHistory) (op : EditOperation) (now : Nat),
      h.undo_stack.length ≤ h.max_history →
      ((h.push op now).undo_stack).length ≤ h.max_history) := by
  constructor
  · intro mh ops t0 now hlenn hadj
    have := pushAll_stack mh ops [] [] t0 500 now (by simp) (by simpa using hadj)
    rw [EditHistory.new]
    simp only [pushAll] at this ⊢
    rw [this]
    simp only [List.append_nil, List.take_reverse, hlenn, Nat.add_sub_cancel_left]
  · intro h op now hlen
    obtain ⟨us, rs, mh, lt, gt⟩ := h
    simp only at hlen ⊢
    cases us with
    | nil =>
      have hg : EditHistory.can_group_with_last
          { undo_stack := [], redo_stack := [], max_history := mh,
            last_edit_time := lt, grouping_threshold_ms := gt } op now = false := by
        simp [EditHistory.can_group_with_last]
      simp only [EditHistory.push, hg]
      simp only [Bool.false_eq_true, if_false]
      split
      · next hcase =>
        dsimp only
        simp only [List.length_dropLast, List.length_cons, List.length_nil] at hcase ⊢
        omega
      · next hcase =>
        dsimp only
        simp only [List.length_cons, List.length_nil] at hcase ⊢
        omega
    | cons a rest =>
      simp only [List.length_cons] at hlen
      cases hm : EditHistory.try_merge_operations a op with
      | none =>
        rw [push_no_merge_eq (a :: rest) rs mh lt gt op now (by simp; omega)
          (by intro top htop; simp only [List.head?, Option.some.injEq] at htop;
              rw [← htop]; exact hm)]
        simp only [List.length_take]
        omega
      | some m =>
        cases hg : EditHistory.can_group_with_last
            { undo_stack := a :: rest, redo_stack := [], max_history := mh,
              last_edit_time := lt, grouping_threshold_ms := gt } op now with
        | true =>
          simp [EditHistory.push, hg, hm]
          omega
        | false =>
          simp only [EditHistory.push, hg, hm]
          simp only [Bool.false_eq_true, if_false]
          split
          · next hcase =>
            dsimp only
            simp only [List.length_dropLast, List.length_cons] at hcase ⊢
            omega
          · next hcase =>
            dsimp only
            simp only [List.length_cons] at hcase ⊢
            omega

/-- **C5 witness**: capacity 1, two non-mergeable newline operations —
only the second survives. -/
theorem c5_capacity_eviction_witness :
    (pushAll (EditHistory.new 1 0) [c5op1, c5op2] 77).undo_stack = [c5op2] := by
  have := c5_capacity_eviction.1 1 [c5op1, c5op2] 0 77 rfl (by decide)
  simpa using this

/-- `List.set` never empties a nonempty list. -/
theorem set_ne_nil (b : BufferL) (i : Nat) (x : Str) (hb : b ≠ []) :
    b.set i x ≠ [] := by
  intro hnil
  have := congrArg List.length hnil
  simp only [List.length_set, List.length_nil] at this
  exact hb (List.length_eq_zero.mp this)

/-- `List.insertIdx` never empties a nonempty list. -/
theorem insertIdx_ne_nil (b : BufferL) (i : Nat) (x : Str) (hb : b ≠ []) :
    b.insertIdx i x ≠ [] := by
  rcases le_or_lt i b.length with hle | hlt
  · intro hnil
    have := congrArg List.length hnil
    rw [List.length_insertIdx i b hle] at this
    simp at this
  · rw [List.insertIdx_of_length_lt b x i hlt]
    exact hb

/-- A successful insertion loop grows the buffer by the number of
inserted lines. -/
theorem insLoop_length (ls : List Str) : ∀ (b : BufferL) (i : Nat) (r : BufferL),
    insLoop b i ls = some r → r.length = b.length + ls.length := by
  induction ls with
  | nil =>
    intro b i r h
    simp only [insLoop, Option.some.injEq] at h
    subst h
    simp
  | cons l ls ih =>
    intro b i r h
    simp only [insLoop] at h
    split at h
    · next hle =>
      have := ih (b.insertIdx i l) (i + 1) r h
      rw [this, List.length_insertIdx i b hle]
      simp only [List.length_cons]
      omega
    · exact absurd h (by simp)

/-- `split('\n')` always yields at least one piece. -/
theorem splitNl_ne_nil (s : Str) : splitNl s ≠ [] := by
  cases s with
  | nil =>
    unfold splitNl
    simp
  | cons c cs =>
    unfold splitNl
    split
    · simp
    · split <;> simp

/-- **C7 (amended).** Both buffer constructors produce a non-empty line
sequence; `Edit::reverse` preserves non-emptiness whenever it completes;
and `Edit::apply` preserves non-emptiness except for
`DeleteLine{line: 0}` on a single-line buffer (the counterexample) — a
case never generated, since backspace only emits `DeleteLine` with
`line ≥ 1`. -/
theorem c7_nonempty_preservation :
    (∀ content : Str, Buffer.from_string content ≠ [])
    ∧ Buffer.default ≠ []
    ∧ (∀ (e : Edit) (b b' : BufferL), b ≠ [] → e.apply b = some b' →
        (∀ c p, e = .deleteLine 0 c p → 1 < b.length) → b' ≠ [])
    ∧ (∀ (e : Edit) (b b' : BufferL), b ≠ [] → e.reverse b = some b' → b' ≠ []) := by
  refine ⟨?_, ?_, ?_, ?_⟩
  · intro content
    simp only [Buffer.from_string]
    exact List.append_ne_nil_of_right_ne_nil _
      (by rw [← List.length_pos, List.length_replicate]; omega)
  · rw [Buffer.default, ← List.length_pos, List.length_replicate]
    omega
  · intro e b b' hb happ hdl
    cases e with
    | insertText l c t =>
      simp only [Edit.apply] at happ
      split at happ
      · cases happ
        exact hb
      · simp only [Option.bind_eq_bind, Option.bind_eq_some, Option.some.injEq] at happ
        obtain ⟨pre, h1, post, h2, rfl⟩ := happ
        exact set_ne_nil b l _ hb
    | deleteText l c t =>
      simp only [Edit.apply] at happ
      split at happ
      · cases happ
        exact hb
      · simp only [Option.bind_eq_bind, Option.bind_eq_some, Option.some.injEq] at happ
        obtain ⟨pre, h1, post, h2, rfl⟩ := happ
        exact set_ne_nil b l _ hb
    | insertLine l t =>
      simp only [Edit.apply] at happ
      split at happ
      · cases happ
        exact insertIdx_ne_nil b (l + 1) t hb
      · cases happ
        exact List.append_ne_nil_of_right_ne_nil b (by simp)
    | deleteLine l c p =>
      simp only [Edit.apply] at happ
      split at happ
      · next hlt =>
        cases happ
        have hlen : 1 < b.length := by
          rcases Nat.eq_zero_or_pos l with rfl | hl
          · exact hdl c p rfl
          · omega
        rw [← List.length_pos, List.length_eraseIdx, if_pos hlt]
        omega
      · cases happ
        exact hb
    | joinLines l f =>
      simp only [Edit.apply] at happ
      split at happ
      · next hlt =>
        have hlen2 : 1 < b.length := by omega
        split at happ
        · cases happ
          refine set_ne_nil _ l _ ?_
          rw [← List.length_pos, List.length_eraseIdx, if_pos hlt]
          omega
        · cases happ
          rw [← List.length_pos, List.length_eraseIdx, if_pos hlt]
          omega
      · cases happ
        exact hb
    | replaceRange sl sc el ec ot nt =>
      simp only [Edit.apply] at happ
      split at happ
      · split at happ
        · cases happ
          exact hb
        · simp only [Option.bind_eq_bind, Option.bind_eq_some, Option.some.injEq] at happ
          obtain ⟨pre, h1, post, h2, rfl⟩ := happ
          exact set_ne_nil b sl _ hb
      · have := insLoop_length (splitNl nt) _ sl b' happ
        rw [← List.length_pos, this]
        have := splitNl_ne_nil nt
        rw [← List.length_pos] at this
        omega
  · intro e b b' hb hrev
    cases e with
    | insertText l c t =>
      simp only [Edit.reverse] at hrev
      split at hrev
      · cases hrev
        exact hb
      · simp only [Option.bind_eq_bind, Option.bind_eq_some, Option.some.injEq] at hrev
        obtain ⟨pre, h1, post, h2, rfl⟩ := hrev
        exact set_ne_nil b l _ hb
    | deleteText l c t =>
      simp only [Edit.reverse] at hrev
      split at hrev
      · cases hrev
        exact hb
      · simp only [Option.bind_eq_bind, Option.bind_eq_some, Option.some.injEq] at hrev
        obtain ⟨pre, h1, post, h2, rfl⟩ := hrev
        exact set_ne_nil b l _ hb
    | insertLine l t =>
      simp only [Edit.reverse] at hrev
      split at hrev
      · next hlt =>
        split at hrev
        · cases hrev
          refine set_ne_nil _ l _ ?_
          rw [← List.length_pos, List.length_eraseIdx, if_pos hlt]
          omega
        · cases hrev
          rw [← List.length_pos, List.length_eraseIdx, if_pos hlt]
          omega
      · cases hrev
        exact hb
    | deleteLine l c p =>
      simp only [Edit.reverse] at hrev
      split at hrev
      · split at hrev
        · cases hrev
          exact hb
        · simp only [Option.bind_eq_bind, Option.bind_eq_some, Option.some.injEq] at hrev
          obtain ⟨q, h1, rfl⟩ := hrev
          exact insertIdx_ne_nil _ l _ (set_ne_nil b (l - 1) _ hb)
      · cases hrev
        exact hb
    | joinLines l f =>
      simp only [Edit.reverse] at hrev
      split at hrev
      · cases hrev
        exact hb
      · simp only [Option.bind_eq_bind, Option.bind_eq_some, Option.some.injEq] at hrev
        obtain ⟨q, h1, rfl⟩ := hrev
        exact insertIdx_ne_nil _ (l + 1) _ (set_ne_nil b l _ hb)
    | replaceRange sl sc el ec ot nt =>
      simp only [Edit.reverse] at hrev
      split at hrev
      · split at hrev
        · cases hrev
          exact hb
        · simp only [Option.bind_eq_bind, Option.bind_eq_some, Option.some.injEq] at hrev
          obtain ⟨pre, h1, post, h2, rfl⟩ := hrev
          exact set_ne_nil b sl _ hb
      · cases hrev
        exact hb

/-- **C8.** `backspace`, with the cursor on an existing line and its
column within the line's grapheme count and no active selection: if the
grapheme column is positive it removes the prior grapheme and returns
`Some` with `DeleteText{line, column-1, text}`; else if the line index
is positive it merges the current line onto the previous one and returns
`Some` with `DeleteLine{line, content, prev_line_end_len}`; else (line
0, column 0) it mutates nothing and returns `None`. -/
theorem c8_backspace_spec (lines : List GStr) (idx col : Nat) (lc : GStr)
    (hget : lines[idx]? = some lc)
    (hcol : col ≤ grapheme_len lc) :
    (0 < col → backspace lines idx col
        = some (lines.set idx (lc.eraseIdx (col - 1)),
            some (.deleteText idx (col - 1) (Option.getD lc[col - 1]? []))))
    ∧ (col = 0 → ∀ prev, lines[idx - 1]? = some prev → 0 < idx →
        backspace lines idx col
          = some ((lines.set (idx - 1) (prev ++ lc)).eraseIdx idx,
              some (.deleteLine idx (gjoin lc) (grapheme_len prev))))
    ∧ (col = 0 → idx = 0 → backspace lines idx col = some (lines, none)) := by
  refine ⟨?_, ?_, ?_⟩
  · intro hc
    simp only [backspace, if_pos hc, hget, if_pos hcol]
  · intro hc0 prev hprev hidx
    subst hc0
    simp only [backspace, lt_irrefl, if_false, if_pos hidx, hprev, hget]
  · intro hc0 hi0
    subst hc0
    subst hi0
    simp only [backspace, lt_irrefl, if_false]

/-- **C8 witness**: backspace at line 1, column 0 of `["a", "b"]`
merges the lines and reports the `DeleteLine`. -/
theorem c8_backspace_spec_witness :
    backspace [[['a']], [['b']]] 1 0
      = some ([[['a'], ['b']]], some (.deleteLine 1 ['b'] 1)) := by
  have := (c8_backspace_spec [[['a']], [['b']]] 1 0 [['b']] rfl
    (by decide)).2.1 rfl [['a']] rfl (by decide)
  simpa using this

/-- UTF-8 length of a cons. -/
theorem byteLen_cons (c : Char) (s : Str) :
    byteLen (c :: s) = c.utf8Size + byteLen s := by
  simp [byteLen]

/-- UTF-8 length is additive under append. -/
theorem byteLen_append (a b : Str) : byteLen (a ++ b) = byteLen a + byteLen b := by
  simp [byteLen]

/-- A nonempty string has positive UTF-8 length. -/
theorem byteLen_pos (s : Str) (hs : s ≠ []) : 0 < byteLen s := by
  cases s with
  | nil => exact absurd rfl hs
  | cons c cs =>
    rw [byteLen_cons]
    have := c.utf8Size_pos
    omega

/-- Splitting at the byte length of a prefix succeeds and recovers the
prefix and suffix: prefix byte offsets are valid character boundaries. -/
theorem byteSplit_append (a b : Str) : byteSplit (a ++ b) (byteLen a) = some (a, b) := by
  induction a with
  | nil =>
    rw [show byteLen [] = 0 from rfl]
    unfold byteSplit
    simp
  | cons c a ih =>
    rw [byteLen_cons, List.cons_append]
    unfold byteSplit
    rw [if_neg (by have := c.utf8Size_pos; omega)]
    dsimp only
    rw [if_pos (Nat.le_add_right _ _), Nat.add_sub_cancel_left, ih]
    rfl

/-- The character content splits along any cluster boundary. -/
theorem gjoin_take_append_drop (s : GStr) (i : Nat) :
    gjoin (s.take i) ++ gjoin (s.drop i) = gjoin s := by
  rw [gjoin, gjoin, gjoin, ← List.flatten_append, List.take_append_drop]

/-- The byte index of grapheme `i` is the byte length of the first `i`
clusters (for `i` past the end, all of them — the clamp). -/
theorem grapheme_to_byte_idx_eq (s : GStr) (i : Nat) :
    grapheme_to_byte_idx s i = byteLen (gjoin (s.take i)) := by
  unfold grapheme_to_byte_idx
  split
  · rfl
  · next hge =>
    rw [List.take_of_length_le (by omega)]
    rfl

/-- Character content of a cons of clusters. -/
theorem gjoin_cons (x : Str) (l : GStr) : gjoin (x :: l) = x ++ gjoin l := by
  rw [gjoin, gjoin, List.flatten_cons]

/-- `remove_grapheme_at`, at the character level, removes exactly the
`i`-th cluster when `i` is in range (so the cluster-list view of the
buffer used by `backspace` is exact), returns the string unchanged with
`None` out of range, and never panics. -/
theorem remove_grapheme_at_spec (s : GStr) (i : Nat) (hs : ∀ g ∈ s, g ≠ []) :
    remove_grapheme_at s i
      = some (if h : i < s.length then (some (s.get ⟨i, h⟩), gjoin (s.eraseIdx i))
              else (none, gjoin s)) := by
  have hsplit : byteSplit (gjoin s) (grapheme_to_byte_idx s i)
      = some (gjoin (s.take i), gjoin (s.drop i)) := by
    rw [grapheme_to_byte_idx_eq]
    conv_lhs => rw [← gjoin_take_append_drop s i]
    exact byteSplit_append _ _
  by_cases h : i < s.length
  · have hcl : s.get ⟨i, h⟩ ≠ [] := hs _ (s.get_mem i h)
    have hdrop : s.drop i = s.get ⟨i, h⟩ :: s.drop (i + 1) := by
      rw [List.drop_eq_getElem_cons h, List.get_eq_getElem]
    have hlt : grapheme_to_byte_idx s i < gByteLen s := by
      rw [grapheme_to_byte_idx_eq, gByteLen]
      conv_rhs => rw [← gjoin_take_append_drop s i]
      rw [byteLen_append]
      have hpos : 0 < byteLen (gjoin (s.drop i)) := by
        rw [hdrop, gjoin_cons, byteLen_append]
        have := byteLen_pos _ hcl
        omega
      omega
    have hbe : grapheme_to_byte_idx s (i + 1)
        = grapheme_to_byte_idx s i + byteLen (s.get ⟨i, h⟩) := by
      rw [grapheme_to_byte_idx_eq, grapheme_to_byte_idx_eq, List.take_succ,
        List.getElem?_eq_getElem h]
      rw [show Option.toList (some s[i]) = [s[i]] from rfl]
      simp only [gjoin, List.flatten_append, List.flatten_cons, List.flatten_nil,
        List.append_nil, byteLen_append, List.get_eq_getElem]
    unfold remove_grapheme_at
    rw [if_pos hlt, dif_pos h]
    unfold drainRange
    rw [if_pos (by omega)]
    rw [hsplit]
    simp only [Option.bind_eq_bind, Option.some_bind]
    rw [hbe, Nat.add_sub_cancel_left]
    conv_lhs => rw [hdrop, gjoin_cons]
    rw [byteSplit_append]
    rw [List.eraseIdx_eq_take_drop_succ]
    simp [gjoin, List.flatten_append]
  · unfold remove_grapheme_at
    rw [dif_neg h]
    have hbs : grapheme_to_byte_idx s i = gByteLen s := by
      unfold grapheme_to_byte_idx
      rw [if_neg h]
    rw [hbs, if_neg (lt_irrefl _)]

/-- **C9.** The grapheme utilities clamp every index to
`[0, grapheme_len(s)]` and never panic: `grapheme_to_byte_idx` is the
byte offset of a cluster boundary, equal to the total byte length for
out-of-range indices; `grapheme_at` yields `none` out of range;
`grapheme_slice` clamps both bounds; `insert_at_grapheme` and
`split_at_grapheme` always succeed and cut between clusters (never
inside one); `remove_grapheme_at` always succeeds, removing exactly the
indexed cluster in range and returning `None` out of range. -/
theorem c9_grapheme_utils_clamp (s : GStr) (i a b : Nat) (t : Str)
    (hs : ∀ g ∈ s, g ≠ []) :
    (s.length ≤ i → grapheme_to_byte_idx s i = gByteLen s)
    ∧ grapheme_to_byte_idx s i = byteLen (gjoin (s.take i))
    ∧ (s.length ≤ i → grapheme_at s i = none)
    ∧ grapheme_slice s a b = grapheme_slice s (min a s.length) (min b s.length)
    ∧ insert_at_grapheme s i t = some (gjoin (s.take i) ++ t ++ gjoin (s.drop i))
    ∧ remove_grapheme_at s i
        = some (if h : i < s.length then (some (s.get ⟨i, h⟩), gjoin (s.eraseIdx i))
                else (none, gjoin s))
    ∧ split_at_grapheme s i = some (gjoin (s.take i), gjoin (s.drop i)) := by
  have hsplit : byteSplit (gjoin s) (grapheme_to_byte_idx s i)
      = some (gjoin (s.take i), gjoin (s.drop i)) := by
    rw [grapheme_to_byte_idx_eq]
    conv_lhs => rw [← gjoin_take_append_drop s i]
    exact byteSplit_append _ _
  refine ⟨?_, grapheme_to_byte_idx_eq s i, ?_, ?_, ?_, ?_, ?_⟩
  · intro hge
    unfold grapheme_to_byte_idx
    rw [if_neg (by omega)]
  · intro hge
    exact List.getElem?_eq_none hge
  · unfold grapheme_slice
    rcases le_or_lt a s.length with ha | ha
    · rw [Nat.min_eq_left ha]
      rcases le_or_lt b s.length with hb | hb
      · rw [Nat.min_eq_left hb]
      · rw [Nat.min_eq_right (le_of_lt hb)]
        congr 1
        have h1 : List.take (b - a) (s.drop a) = s.drop a :=
          List.take_of_length_le (by rw [List.length_drop]; omega)
        have h2 : List.take (s.length - a) (s.drop a) = s.drop a :=
          List.take_of_length_le (by rw [List.length_drop])
        simp only [h1, h2]
    · have hmina : min a s.length = s.length := Nat.min_eq_right (le_of_lt ha)
      rw [hmina, List.drop_of_length_le (le_of_lt ha), List.drop_length]
      simp
  · unfold insert_at_grapheme
    rw [hsplit]
    rfl
  · exact remove_grapheme_at_spec s i hs
  · unfold split_at_grapheme
    exact hsplit

/-- **C9 witness**: inserting at grapheme index 1 of a two-cluster
string lands between the clusters; removing index 1 removes the second
cluster. -/
theorem c9_grapheme_utils_clamp_witness :
    insert_at_grapheme [['a'], ['b']] 1 ['z'] = some ['a', 'z', 'b']
      ∧ remove_grapheme_at [['a'], ['b']] 1 = some (some ['b'], ['a']) := by
  have h := c9_grapheme_utils_clamp [['a'], ['b']] 1 0 1 ['z'] (by decide)
  refine ⟨?_, ?_⟩
  · rw [h.2.2.2.2.1]
    rfl
  · rw [h.2.2.2.2.2.1]
    rfl

/-- **C7 witness**: `DeleteLine{line: 1}` applied to the two-line buffer
`["a", "b"]` leaves the non-empty buffer `["a"]`. -/
theorem c7_nonempty_preservation_witness : ([['a']] : BufferL) ≠ [] := by
  exact c7_nonempty_preservation.2.2.1 (.deleteLine 1 [] 0) [['a'], ['b']] [['a']]
    (by decide) (by decide) (by intro c p hcp; simp at hcp)
